import Mathlib

set_option maxRecDepth 20000

/- Shallow embedding of the chat-stream repository:
   - src/app/api/chat/route.ts   (conversation relay, ephemeral conversation cache)
   - src/components/chat-view.tsx (chat client: transcript store, streaming reader)
   Machine strings are modelled as `List Char`, byte streams as `List Nat`. -/

namespace ChatStream

/-! ## UTF-8 byte / codepoint model (the client's stateful `TextDecoder`)

The client reads the response body chunk by chunk and decodes with
`decoder.decode(value, \x7b stream: true \x7d)`: complete UTF-8 sequences are
emitted, an incomplete trailing sequence is carried over to the next call.
We model bytes as `Nat` and decoded text as the list of codepoints.
The model covers well-formed streams (valid lead byte followed by the right
number of continuation bytes); it does not re-check overlong or surrogate
encodings, which no claim exercises. -/


/-- Length of the UTF-8 sequence introduced by lead byte `b` (0 = invalid lead). -/
def seqLen (b : Nat) : Nat :=
  if b < 0x80 then 1
  else if 0xC2 ≤ b ∧ b ≤ 0xDF then 2
  else if 0xE0 ≤ b ∧ b ≤ 0xEF then 3
  else if 0xF0 ≤ b ∧ b ≤ 0xF4 then 4
  else 0

/-- Is `b` a UTF-8 continuation byte? -/
def isCont (b : Nat) : Bool :=
  decide (0x80 ≤ b ∧ b < 0xC0)

/-- The bytes `b :: rest` begin with a full sequence: valid lead byte and
enough following bytes. -/
def hasSeq (b : Nat) (rest : List Nat) : Bool :=
  decide (1 ≤ seqLen b ∧ seqLen b - 1 ≤ rest.length)

/-- Value contributed by the lead byte. -/
def leadVal (b : Nat) : Nat :=
  if b < 0x80 then b
  else if b ≤ 0xDF then b - 0xC0
  else if b ≤ 0xEF then b - 0xE0
  else b - 0xF0

/-- Codepoint of one UTF-8 sequence: lead byte plus continuation bytes. -/
def decodeCp (b : Nat) (cont : List Nat) : Nat :=
  cont.foldl (fun a c => a * 0x40 + (c - 0x80)) (leadVal b)

/-- Fueled: the byte list is a whole number of valid UTF-8 sequences. -/
def wellFormedF : Nat → List Nat → Bool
  | _, [] => true
  | 0, _ :: _ => false
  | f + 1, b :: rest =>
    hasSeq b rest && (rest.take (seqLen b - 1)).all isCont &&
      wellFormedF f (rest.drop (seqLen b - 1))

/-- The byte list is a whole number of valid UTF-8 sequences. -/
def wellFormed (bs : List Nat) : Bool := wellFormedF bs.length bs

/-- Fueled: split into maximal complete-sequence prefix and pending remainder. -/
def takeCompleteF : Nat → List Nat → List Nat × List Nat
  | _, [] => ([], [])
  | 0, b :: rest => ([], b :: rest)
  | f + 1, b :: rest =>
    if hasSeq b rest then
      let t := takeCompleteF f (rest.drop (seqLen b - 1))
      (b :: rest.take (seqLen b - 1) ++ t.1, t.2)
    else ([], b :: rest)

/-- Split a byte list into its maximal prefix of complete UTF-8 sequences and
the incomplete remainder the streaming decoder keeps pending. -/
def takeComplete (bs : List Nat) : List Nat × List Nat := takeCompleteF bs.length bs

/-- Fueled: decode complete UTF-8 sequences into codepoints. -/
def utf8DecodeF : Nat → List Nat → List Nat
  | _, [] => []
  | 0, _ :: _ => []
  | f + 1, b :: rest =>
    if hasSeq b rest then
      decodeCp b (rest.take (seqLen b - 1)) :: utf8DecodeF f (rest.drop (seqLen b - 1))
    else []

/-- Decode a byte list into codepoints, sequence by sequence.  An incomplete
trailing sequence decodes to nothing (the streaming decoder keeps it pending). -/
def utf8Decode (bs : List Nat) : List Nat := utf8DecodeF bs.length bs

/-- The pending buffer of the streaming decoder: empty, or a strict prefix of
one sequence. -/
def incomplete : List Nat → Bool
  | [] => true
  | b :: rest => decide (rest.length + 1 < seqLen b)

/-- The client's read loop (src/components/chat-view.tsx, handleSend):
feed each chunk to the stateful decoder, concatenating the decoded text.
Returns (all decoded codepoints, final pending bytes). -/
def clientStream : List Nat → List (List Nat) → List Nat × List Nat
  | pend, [] => ([], pend)
  | pend, c :: cs =>
    let tc := takeComplete (pend ++ c)
    let r := clientStream tc.2 cs
    (utf8Decode tc.1 ++ r.1, r.2)

/-! ### Fuel irrelevance -/

theorem wellFormedF_fuel :
    ∀ (f g : Nat) (bs : List Nat), bs.length ≤ f → bs.length ≤ g →
      wellFormedF f bs = wellFormedF g bs := by
  intro f
  induction f with
  | zero =>
    intro g bs hf _
    have : bs = [] := List.eq_nil_of_length_eq_zero (Nat.le_zero.mp hf)
    subst this
    cases g <;> rfl
  | succ f ih =>
    intro g bs hf hg
    match bs with
    | [] => cases g <;> rfl
    | b :: rest =>
      match g with
      | 0 => simp at hg
      | g + 1 =>
        simp only [wellFormedF]
        have hd : (rest.drop (seqLen b - 1)).length ≤ rest.length := by
          simp [List.length_drop]
        have h1 : (rest.drop (seqLen b - 1)).length ≤ f := by
          simp at hf; omega
        have h2 : (rest.drop (seqLen b - 1)).length ≤ g := by
          simp at hg; omega
        rw [ih g (rest.drop (seqLen b - 1)) h1 h2]

theorem takeCompleteF_fuel :
    ∀ (f g : Nat) (bs : List Nat), bs.length ≤ f → bs.length ≤ g →
      takeCompleteF f bs = takeCompleteF g bs := by
  intro f
  induction f with
  | zero =>
    intro g bs hf _
    have : bs = [] := List.eq_nil_of_length_eq_zero (Nat.le_zero.mp hf)
    subst this
    cases g <;> rfl
  | succ f ih =>
    intro g bs hf hg
    match bs with
    | [] => cases g <;> rfl
    | b :: rest =>
      match g with
      | 0 => simp at hg
      | g + 1 =>
        simp only [takeCompleteF]
        have h1 : (rest.drop (seqLen b - 1)).length ≤ f := by
          simp at hf ⊢; omega
        have h2 : (rest.drop (seqLen b - 1)).length ≤ g := by
          simp at hg ⊢; omega
        rw [ih g (rest.drop (seqLen b - 1)) h1 h2]

theorem utf8DecodeF_fuel :
    ∀ (f g : Nat) (bs : List Nat), bs.length ≤ f → bs.length ≤ g →
      utf8DecodeF f bs = utf8DecodeF g bs := by
  intro f
  induction f with
  | zero =>
    intro g bs hf _
    have : bs = [] := List.eq_nil_of_length_eq_zero (Nat.le_zero.mp hf)
    subst this
    cases g <;> rfl
  | succ f ih =>
    intro g bs hf hg
    match bs with
    | [] => cases g <;> rfl
    | b :: rest =>
      match g with
      | 0 => simp at hg
      | g + 1 =>
        simp only [utf8DecodeF]
        have h1 : (rest.drop (seqLen b - 1)).length ≤ f := by
          simp at hf ⊢; omega
        have h2 : (rest.drop (seqLen b - 1)).length ≤ g := by
          simp at hg ⊢; omega
        rw [ih g (rest.drop (seqLen b - 1)) h1 h2]

/-! ### Streaming-decoder correctness -/

theorem utf8Decode_append :
    ∀ (f : Nat) (a b : List Nat), a.length ≤ f → wellFormed a = true →
      utf8Decode (a ++ b) = utf8Decode a ++ utf8Decode b := by
  intro f
  induction f with
  | zero =>
    intro a b hf _
    have : a = [] := List.eq_nil_of_length_eq_zero (Nat.le_zero.mp hf)
    subst this; simp [utf8Decode, utf8DecodeF]
  | succ f ih =>
    intro a b hf hwf
    match a with
    | [] => simp [utf8Decode, utf8DecodeF]
    | x :: rest =>
      unfold wellFormed at hwf
      simp only [List.length_cons, wellFormedF, Bool.and_eq_true] at hwf
      obtain ⟨⟨hseq, hcont⟩, hrec⟩ := hwf
      have hsk : seqLen x - 1 ≤ rest.length := by
        simp [hasSeq] at hseq; omega
      have hlend : (rest.drop (seqLen x - 1)).length ≤ f := by
        simp at hf ⊢; omega
      have hwfd : wellFormed (rest.drop (seqLen x - 1)) = true := by
        unfold wellFormed
        rw [wellFormedF_fuel (rest.drop (seqLen x - 1)).length rest.length _
          (le_refl _) (by simp)]
        exact hrec
      -- left side
      have hseq' : hasSeq x (rest ++ b) = true := by
        simp [hasSeq] at hseq ⊢
        omega
      unfold utf8Decode
      simp only [List.cons_append, List.length_cons, utf8DecodeF, hseq, hseq',
        if_true, List.length_append, List.append_eq]
      rw [List.take_append_of_le_length hsk, List.drop_append_of_le_length hsk]
      have e1 : utf8DecodeF (rest.length + b.length)
          (rest.drop (seqLen x - 1) ++ b)
          = utf8Decode (rest.drop (seqLen x - 1) ++ b) :=
        utf8DecodeF_fuel (rest.length + b.length)
          (rest.drop (seqLen x - 1) ++ b).length (rest.drop (seqLen x - 1) ++ b)
          (by simp only [List.length_append, List.length_drop]; omega) (le_refl _)
      have e2 : utf8DecodeF rest.length (rest.drop (seqLen x - 1))
          = utf8Decode (rest.drop (seqLen x - 1)) :=
        utf8DecodeF_fuel rest.length (rest.drop (seqLen x - 1)).length
          (rest.drop (seqLen x - 1))
          (by simp only [List.length_drop]; omega) (le_refl _)
      rw [e1, e2, ih (rest.drop (seqLen x - 1)) b hlend hwfd]
      simp [utf8Decode]

theorem takeComplete_spec :
    ∀ (f : Nat) (bs t : List Nat), bs.length ≤ f → wellFormed (bs ++ t) = true →
      bs = (takeComplete bs).1 ++ (takeComplete bs).2 ∧
      wellFormed (takeComplete bs).1 = true ∧
      wellFormed ((takeComplete bs).2 ++ t) = true ∧
      incomplete (takeComplete bs).2 = true := by
  intro f
  induction f with
  | zero =>
    intro bs t hf hwf
    have : bs = [] := List.eq_nil_of_length_eq_zero (Nat.le_zero.mp hf)
    subst this
    refine ⟨rfl, rfl, by simpa using hwf, rfl⟩
  | succ f ih =>
    intro bs t hf hwf
    match bs with
    | [] => refine ⟨rfl, rfl, by simpa using hwf, rfl⟩
    | x :: rest =>
      by_cases hseq : hasSeq x rest = true
      · -- a full sequence is available: it is consumed
        have hsk : seqLen x - 1 ≤ rest.length := by
          simp [hasSeq] at hseq; omega
        -- unfold the well-formedness of (x :: rest) ++ t
        unfold wellFormed at hwf
        simp only [List.cons_append, List.length_cons, wellFormedF,
          Bool.and_eq_true, List.append_eq] at hwf
        have hseq2 : hasSeq x (rest ++ t) = true := by
          simp [hasSeq] at hseq ⊢
          omega
        rw [List.take_append_of_le_length hsk,
          List.drop_append_of_le_length hsk] at hwf
        obtain ⟨⟨_, hcont⟩, hrec⟩ := hwf
        have hwfd : wellFormed (rest.drop (seqLen x - 1) ++ t) = true := by
          unfold wellFormed
          rw [wellFormedF_fuel (rest.drop (seqLen x - 1) ++ t).length
            (rest ++ t).length _ (le_refl _)
            (by simp only [List.length_append, List.length_drop]; omega)]
          exact hrec
        have hlend : (rest.drop (seqLen x - 1)).length ≤ f := by
          simp at hf ⊢; omega
        obtain ⟨ih1, ih2, ih3, ih4⟩ := ih (rest.drop (seqLen x - 1)) t hlend hwfd
        -- compute takeComplete (x :: rest)
        have htc : takeComplete (x :: rest) =
            (x :: rest.take (seqLen x - 1) ++ (takeComplete (rest.drop (seqLen x - 1))).1,
             (takeComplete (rest.drop (seqLen x - 1))).2) := by
          unfold takeComplete
          simp only [List.length_cons, takeCompleteF, hseq, if_true]
          rw [takeCompleteF_fuel rest.length (rest.drop (seqLen x - 1)).length _
            (by simp) (le_refl _)]
        rw [htc]
        refine ⟨?_, ?_, ih3, ih4⟩
        · -- reassembly
          simp only [List.cons_append, List.append_assoc]
          rw [← ih1, List.take_append_drop]
        · -- the consumed prefix is well-formed
          have hlt : (rest.take (seqLen x - 1)).length = seqLen x - 1 := by
            simp only [List.length_take]; omega
          have hseq3 : hasSeq x (rest.take (seqLen x - 1) ++
              (takeComplete (rest.drop (seqLen x - 1))).1) = true := by
            simp only [hasSeq, List.length_append, List.length_take,
              decide_eq_true_eq] at hseq ⊢
            omega
          have hkle : seqLen x - 1 ≤ (rest.take (seqLen x - 1)).length := by
            rw [hlt]
          unfold wellFormed
          simp only [List.length_cons, wellFormedF, Bool.and_eq_true,
            List.append_eq]
          refine ⟨⟨hseq3, ?_⟩, ?_⟩
          · rw [List.take_append_of_le_length hkle, List.take_take]
            simpa using hcont
          · rw [List.drop_append_of_le_length hkle,
              List.drop_eq_nil_of_le (le_of_eq hlt), List.nil_append]
            unfold wellFormed at ih2
            rw [wellFormedF_fuel
              (rest.take (seqLen x - 1) ++ (takeComplete (rest.drop (seqLen x - 1))).1).length
              (takeComplete (rest.drop (seqLen x - 1))).1.length
              (takeComplete (rest.drop (seqLen x - 1))).1
              (by simp only [List.length_append]; omega) (le_refl _)]
            exact ih2
      · -- no full sequence: everything stays pending
        have htc : takeComplete (x :: rest) = ([], x :: rest) := by
          unfold takeComplete
          simp only [List.length_cons, takeCompleteF, hseq, if_false]
          simp [hseq]
        rw [htc]
        refine ⟨by simp, rfl, by simpa using hwf, ?_⟩
        -- incompleteness: the lead byte is valid (from well-formedness of
        -- bs ++ t) but the rest is too short
        unfold wellFormed at hwf
        simp only [List.cons_append, List.length_cons, wellFormedF,
          Bool.and_eq_true] at hwf
        obtain ⟨⟨hseq2, _⟩, _⟩ := hwf
        simp [hasSeq] at hseq hseq2
        simp [incomplete]
        omega

theorem incomplete_wellFormed_nil (p : List Nat)
    (hwf : wellFormed p = true) (hinc : incomplete p = true) : p = [] := by
  match p with
  | [] => rfl
  | b :: rest =>
    unfold wellFormed at hwf
    simp only [List.length_cons, wellFormedF, Bool.and_eq_true] at hwf
    obtain ⟨⟨hseq, _⟩, _⟩ := hwf
    simp [hasSeq] at hseq
    simp [incomplete] at hinc
    omega

theorem clientStream_spec :
    ∀ (chunks : List (List Nat)) (pend : List Nat),
      incomplete pend = true → wellFormed (pend ++ chunks.flatten) = true →
      clientStream pend chunks = (utf8Decode (pend ++ chunks.flatten), []) := by
  intro chunks
  induction chunks with
  | nil =>
    intro pend hinc hwf
    simp only [List.flatten_nil, List.append_nil] at hwf
    have : pend = [] := incomplete_wellFormed_nil pend hwf hinc
    subst this
    simp [clientStream, utf8Decode, utf8DecodeF]
  | cons c cs ih =>
    intro pend hinc hwf
    simp only [List.flatten_cons, ← List.append_assoc] at hwf
    obtain ⟨h1, h2, h3, h4⟩ :=
      takeComplete_spec (pend ++ c).length (pend ++ c) cs.flatten (le_refl _) hwf
    simp only [clientStream]
    rw [ih (takeComplete (pend ++ c)).2 h4 h3]
    have : pend ++ (c :: cs).flatten =
        (takeComplete (pend ++ c)).1 ++ ((takeComplete (pend ++ c)).2 ++ cs.flatten) := by
      simp only [List.flatten_cons, ← List.append_assoc, ← h1]
    rw [this, utf8Decode_append (takeComplete (pend ++ c)).1.length _ _ (le_refl _) h2]

/-- Codepoints of the sentinel content "Thinking…" of the assistant
placeholder (src/components/chat-view.tsx). -/
def sentinelCps : List Nat := "Thinking…".toList.map Char.toNat

/-- Final content of the assistant placeholder once the stream has ended: on
every chunk the client sets `content: acc || "Thinking…"`, so an accumulator
that is still empty leaves the sentinel in place (and with no chunks at all
the placeholder keeps its initial sentinel content). -/
def clientFinalContent (chunks : List (List Nat)) : List Nat :=
  let acc := (clientStream [] chunks).1
  if acc = [] then sentinelCps else acc

/-- Whitespace for JS `\s`, `String.prototype.trim` and JSON
(space, tab, LF, CR). -/
def isWs (c : Char) : Bool :=
  c = ' ' ∨ c = '\t' ∨ c = '\n' ∨ c = '\r'

/-- A character matched by `.` in a regex (anything but a line terminator). -/
def notNL (c : Char) : Bool :=
  ¬ (c = '\n' ∨ c = '\r')

/-- JS `String.prototype.trim`: strip whitespace from both ends. -/
def jsTrim (s : String) : String :=
  ⟨((s.toList.dropWhile isWs).reverse.dropWhile isWs).reverse⟩

/-! ## Client transcript store and per-turn state machine
(src/components/chat-view.tsx, `ChatView`)

State: `messages`, `loading`, `sessionId` (React state), plus the id of the
assistant placeholder whose stream is currently open (`assistantDraft.id` in
`handleSend`) and the accumulator `acc`.  Message ids (`crypto.randomUUID()`)
are modelled as a fresh counter.  Form submission is only possible while the
input and button are enabled (`disabled=\x7bloading || !sessionId\x7d`), which
the `submit` transition reflects. -/

inductive Role where
  | user
  | assistant
deriving DecidableEq, Repr

structure ClientMsg where
  id : Nat
  role : Role
  content : String
deriving DecidableEq, Repr

structure ClientState where
  messages : List ClientMsg
  loading : Bool
  sessionId : Option String
  draft : Option Nat
  nextId : Nat
  acc : String
deriving DecidableEq, Repr

/-- Initial component state: empty transcript, not loading, no session id yet. -/
def clientInit : ClientState :=
  { messages := [], loading := false, sessionId := none, draft := none,
    nextId := 0, acc := "" }

inductive ClientEvent where
  | setSession (sid : String)
  | submit (raw : String)
  | chunk (t : String)
  | finish

/-- One step of the client.
* `setSession`: the mount effect stores the session id.
* `submit`: a form submission.  While `loading` is true or no session id
  exists the controls are disabled, so the submission does not happen (state
  unchanged); the handler also drops whitespace-only input
  (`if (!text) return`).  Otherwise it appends the user message with the
  trimmed text and the assistant placeholder "Thinking…" and sets loading.
* `chunk`: a decoded chunk of the open stream arrives; the accumulator grows
  and the draft content becomes `acc || "Thinking…"`.
* `finish`: the stream closed or failed (`finally`): loading cleared, no open
  draft. -/
def clientStep (s : ClientState) : ClientEvent → ClientState
  | .setSession sid => { s with sessionId := some sid }
  | .submit raw =>
    if s.loading ∨ s.sessionId = none then s
    else if jsTrim raw = "" then s
    else
      { s with
        messages := s.messages ++
          [⟨s.nextId, Role.user, jsTrim raw⟩,
           ⟨s.nextId + 1, Role.assistant, "Thinking…"⟩],
        loading := true,
        draft := some (s.nextId + 1),
        nextId := s.nextId + 2,
        acc := "" }
  | .chunk t =>
    match s.draft with
    | some d =>
      let acc := s.acc ++ t
      { s with
        acc := acc,
        messages := s.messages.map fun m =>
          if m.id = d then
            { m with content := if acc = "" then "Thinking…" else acc }
          else m }
    | none => s
  | .finish => { s with loading := false, draft := none }

/-- States the client can actually be in. -/
inductive Reachable : ClientState → Prop
  | init : Reachable clientInit
  | step (s : ClientState) (e : ClientEvent) :
      Reachable s → Reachable (clientStep s e)

/-- Number of transcript messages that are the placeholder of the currently
open stream (an assistant placeholder still awaiting content). -/
def awaitingCount (s : ClientState) : Nat :=
  (s.messages.filter fun m => s.draft = some m.id).length

/-- Invariant carried through all client transitions: ids are below the
counter and distinct. -/
def ClientInv (s : ClientState) : Prop :=
  (∀ m ∈ s.messages, m.id < s.nextId) ∧ (s.messages.map ClientMsg.id).Nodup

theorem clientInv_init : ClientInv clientInit := by
  constructor <;> simp [clientInit]

theorem clientInv_step (s : ClientState) (e : ClientEvent)
    (h : ClientInv s) : ClientInv (clientStep s e) := by
  obtain ⟨hbound, hnodup⟩ := h
  cases e with
  | setSession sid => exact ⟨hbound, hnodup⟩
  | submit raw =>
    by_cases hg : s.loading ∨ s.sessionId = none
    · have hs : clientStep s (.submit raw) = s := by simp [clientStep, hg]
      rw [hs]; exact ⟨hbound, hnodup⟩
    · by_cases ht : jsTrim raw = ""
      · have hs : clientStep s (.submit raw) = s := by simp [clientStep, hg, ht]
        rw [hs]; exact ⟨hbound, hnodup⟩
      · have hs : clientStep s (.submit raw) =
            { s with
              messages := s.messages ++
                [⟨s.nextId, Role.user, jsTrim raw⟩,
                 ⟨s.nextId + 1, Role.assistant, "Thinking…"⟩],
              loading := true, draft := some (s.nextId + 1),
              nextId := s.nextId + 2, acc := "" } := by
          simp [clientStep, hg, ht]
        rw [hs]
        constructor
        · intro m hm
          simp only [List.mem_append, List.mem_cons,
            List.not_mem_nil, or_false] at hm
          rcases hm with hm | hm | hm
          · have := hbound m hm
            simp only []
            omega
          · subst hm; simp
          · subst hm; simp
        · simp only [List.map_append, List.map_cons, List.map_nil]
          rw [List.nodup_append]
          refine ⟨hnodup, by simp, ?_⟩
          intro a ha
          simp only [List.mem_map] at ha
          obtain ⟨m, hm, rfl⟩ := ha
          have := hbound m hm
          simp only [List.mem_cons, List.not_mem_nil, or_false]
          omega
  | chunk t =>
    cases hd : s.draft with
    | none =>
      have hs : clientStep s (.chunk t) = s := by simp [clientStep, hd]
      rw [hs]; exact ⟨hbound, hnodup⟩
    | some d =>
      have hs : clientStep s (.chunk t) =
          { s with
            acc := s.acc ++ t,
            messages := s.messages.map fun m =>
              if m.id = d then
                { m with content := if s.acc ++ t = "" then "Thinking…" else s.acc ++ t }
              else m } := by
        simp [clientStep, hd]
      rw [hs]
      have hids : ((s.messages.map fun m =>
            if m.id = d then
              { m with content := if s.acc ++ t = "" then "Thinking…" else s.acc ++ t }
            else m).map ClientMsg.id)
          = s.messages.map ClientMsg.id := by
        rw [List.map_map]
        apply List.map_congr_left
        intro m _
        by_cases hid : m.id = d <;> simp [hid]
      constructor
      · intro m hm
        simp only [List.mem_map] at hm
        obtain ⟨m₀, hm₀, rfl⟩ := hm
        have := hbound m₀ hm₀
        by_cases hid : m₀.id = d <;> simp only [hid, if_true, if_false, ite_true, ite_false] <;> omega
      · simp only []
        rw [hids]
        exact hnodup
  | finish => exact ⟨hbound, hnodup⟩

theorem reachable_clientInv (s : ClientState) (h : Reachable s) : ClientInv s := by
  induction h with
  | init => exact clientInv_init
  | step s e _ ih => exact clientInv_step s e ih

theorem nodup_filter_eq_le_one (l : List Nat) (d : Nat) (h : l.Nodup) :
    (l.filter fun x => decide (d = x)).length ≤ 1 := by
  induction l with
  | nil => simp
  | cons a as ih =>
    simp only [List.nodup_cons] at h
    by_cases hda : d = a
    · subst hda
      have hnil : as.filter (fun x => decide (d = x)) = [] := by
        apply List.filter_eq_nil_iff.mpr
        intro b hb
        simp only [decide_eq_true_eq]
        rintro rfl
        exact h.1 hb
      simp [List.filter_cons, hnil]
    · simp only [List.filter_cons, hda, decide_eq_true_eq, if_false]
      simpa using ih h.2

theorem awaitingCount_le_one (s : ClientState) (h : ClientInv s) :
    awaitingCount s ≤ 1 := by
  obtain ⟨_, hnodup⟩ := h
  unfold awaitingCount
  cases hd : s.draft with
  | none => simp
  | some d =>
    have hswap : ((s.messages.map ClientMsg.id).filter fun x => decide (d = x))
        = (s.messages.filter fun m => decide (some d = some m.id)).map ClientMsg.id := by
      rw [List.filter_map]
      apply congrArg
      apply List.filter_congr
      intro m _
      simp
    have h1 := nodup_filter_eq_le_one (s.messages.map ClientMsg.id) d hnodup
    rw [hswap] at h1
    simpa using h1

/-! ## Relay stream parsing (src/app/api/chat/route.ts)

The relay decodes every upstream chunk independently (`decoder.decode(value)`
with no streaming option) and scans the decoded text of that single chunk
with `chunk.matchAll(/data:\s*(\x7b.*\x7d)/g)`: at the first unconsumed
occurrence of `data:`, optional whitespace, an opening brace, then greedily
up to the last closing brace on the same line.  Each captured group is fed to
`JSON.parse`; on success the text at
`json?.candidates?.[0]?.content?.parts?.[0]?.text ?? ""` is forwarded if
non-empty, and parse failures are skipped.  We model chunks as already
decoded character lists. -/

/-- Split a list at its LAST closing brace: returns (prefix including that
brace, remainder), or `none` when the list has no closing brace.  This is the
greedy backtracking of `.*\x7d`. -/
def splitAtLastBrace : List Char → Option (List Char × List Char)
  | [] => none
  | c :: cs =>
    match splitAtLastBrace cs with
    | some (a, b) => some (c :: a, b)
    | none => if c = '}' then some ([c], cs) else none

/-- The characters of the event marker `data:`. -/
def dataMarker : List Char := ['d', 'a', 't', 'a', ':']

/-- Try to match `data:\s*(\x7b.*\x7d)` at the head of `s`.  Returns the
captured group (including both braces) and the rest of the input after the
match. -/
def tryMatchAt (s : List Char) : Option (List Char × List Char) :=
  if dataMarker.isPrefixOf s then
    match (s.drop 5).dropWhile isWs with
    | [] => none
    | c :: s3 =>
      if c = '{' then
        match splitAtLastBrace (s3.takeWhile notNL) with
        | some (grp, lineRem) => some (c :: grp, lineRem ++ s3.dropWhile notNL)
        | none => none
      else none
  else none

theorem splitAtLastBrace_split (l : List Char) :
    ∀ a b, splitAtLastBrace l = some (a, b) → l = a ++ b := by
  induction l with
  | nil => intro a b h; simp [splitAtLastBrace] at h
  | cons c cs ih =>
    intro a b h
    simp only [splitAtLastBrace] at h
    cases hs : splitAtLastBrace cs with
    | some p =>
      rw [hs] at h
      obtain ⟨a0, b0⟩ := p
      simp only [Option.some.injEq, Prod.mk.injEq] at h
      obtain ⟨h1, h2⟩ := h
      subst h1; subst h2
      have := ih a0 b0 hs
      simp [this]
    | none =>
      rw [hs] at h
      by_cases hc : c = '}'
      · rw [if_pos hc] at h
        simp only [Option.some.injEq, Prod.mk.injEq] at h
        obtain ⟨h1, h2⟩ := h
        subst h1; subst h2
        simp
      · rw [if_neg hc] at h
        simp at h

theorem marker_length_le (s : List Char)
    (hp : dataMarker.isPrefixOf s = true) : 5 ≤ s.length := by
  match s with
  | [] => simp [dataMarker, List.isPrefixOf] at hp
  | [_] => simp [dataMarker, List.isPrefixOf] at hp
  | [_, _] => simp [dataMarker, List.isPrefixOf] at hp
  | [_, _, _] => simp [dataMarker, List.isPrefixOf] at hp
  | [_, _, _, _] => simp [dataMarker, List.isPrefixOf] at hp
  | _ :: _ :: _ :: _ :: _ :: _ => simp

/-- A successful match consumes at least the marker: the remainder is
strictly shorter. -/
theorem tryMatchAt_shrink (s : List Char) (g a : List Char)
    (h : tryMatchAt s = some (g, a)) : a.length < s.length := by
  unfold tryMatchAt at h
  by_cases hp : dataMarker.isPrefixOf s
  · rw [if_pos hp] at h
    have hs5 : 5 ≤ s.length := marker_length_le s hp
    cases hdw : (s.drop 5).dropWhile isWs with
    | nil => rw [hdw] at h; simp at h
    | cons c s3 =>
      rw [hdw] at h
      dsimp only at h
      by_cases hc : c = '{'
      · rw [if_pos hc] at h
        cases hsp : splitAtLastBrace (s3.takeWhile notNL) with
        | none => rw [hsp] at h; simp at h
        | some p =>
          rw [hsp] at h
          obtain ⟨grp, lineRem⟩ := p
          simp only [Option.some.injEq, Prod.mk.injEq] at h
          obtain ⟨_, h2⟩ := h
          have hdwle : ((s.drop 5).dropWhile isWs).length ≤ (s.drop 5).length :=
            (List.dropWhile_sublist _).length_le
          have hlen3 : s3.length + 1 ≤ s.length - 5 := by
            rw [hdw] at hdwle
            simp at hdwle
            omega
          have hsplit : grp ++ lineRem = s3.takeWhile notNL :=
            (splitAtLastBrace_split _ _ _ hsp).symm
          have hrem : lineRem.length ≤ (s3.takeWhile notNL).length := by
            rw [← hsplit]
            simp
          have htD : (s3.takeWhile notNL).length + (s3.dropWhile notNL).length
              = s3.length := by
            rw [← List.length_append, List.takeWhile_append_dropWhile]
          rw [← h2]
          simp only [List.length_append]
          omega
      · rw [if_neg hc] at h
        simp at h
  · rw [if_neg hp] at h
    simp at h

/-- Fueled scan of `matchAll`: find all non-overlapping matches left to
right, resuming after each match. -/
def findMatchesF : Nat → List Char → List (List Char)
  | 0, _ => []
  | _ + 1, [] => []
  | fuel + 1, c :: rest =>
    match tryMatchAt (c :: rest) with
    | some (grp, after) => grp :: findMatchesF fuel after
    | none => findMatchesF fuel rest

/-- All captures of `/data:\s*(\x7b.*\x7d)/g` over one chunk. -/
def findMatches (s : List Char) : List (List Char) := findMatchesF s.length s

/-! ## JSON model (`JSON.parse` on captured event payloads)

A JSON value and a recursive-descent parser for the subset the upstream
events use: null, booleans, integer numbers, strings with simple escapes,
arrays and objects.  Fractional/exponent numerics and `\u` escapes are not
modelled (no claim exercises them); everything else follows JSON.parse:
a value with trailing garbage, or any malformed input, fails. -/

inductive Json where
  | null
  | bool (b : Bool)
  | num (n : Int)
  | str (s : List Char)
  | arr (xs : List Json)
  | obj (fields : List (List Char × Json))

/-- JSON string escapes after a backslash (`\u` not modelled). -/
def escMap (c : Char) : Option Char :=
  if c = '"' then some '"'
  else if c = '\\' then some '\\'
  else if c = '/' then some '/'
  else if c = 'n' then some '\n'
  else if c = 't' then some '\t'
  else if c = 'r' then some '\r'
  else if c = 'b' then some (Char.ofNat 8)
  else if c = 'f' then some (Char.ofNat 12)
  else none

/-- Parse the body of a string literal (the opening quote already consumed);
returns the content and the input after the closing quote. -/
def parseStringLit : List Char → Option (List Char × List Char)
  | [] => none
  | c :: cs =>
    if c = '"' then some ([], cs)
    else if c = '\\' then
      match cs with
      | [] => none
      | e :: cs2 =>
        match escMap e with
        | some ch =>
          match parseStringLit cs2 with
          | some (content, rest) => some (ch :: content, rest)
          | none => none
        | none => none
    else
      match parseStringLit cs with
      | some (content, rest) => some (c :: content, rest)
      | none => none

def isDigit (c : Char) : Bool := decide ('0' ≤ c ∧ c ≤ '9')

def digitsVal (ds : List Char) : Nat :=
  ds.foldl (fun a c => a * 10 + (c.toNat - 48)) 0

/-- Integer numerics (optionally signed). -/
def parseNum (s : List Char) : Option (Int × List Char) :=
  match s with
  | '-' :: rest =>
    let ds := rest.takeWhile isDigit
    if ds = [] then none
    else some (-(digitsVal ds : Int), rest.dropWhile isDigit)
  | _ =>
    let ds := s.takeWhile isDigit
    if ds = [] then none
    else some ((digitsVal ds : Int), s.dropWhile isDigit)

def skipWs (s : List Char) : List Char := s.dropWhile isWs

/-- Intermediate parse results: a value, array items, or object fields. -/
inductive JPiece where
  | val (j : Json)
  | items (xs : List Json)
  | fields (fs : List (List Char × Json))

/-- Fueled recursive-descent parser.  Mode 0 parses one value; mode 1 parses
the items of an array after `[`; any other mode parses the fields of an
object after `\x7b`. -/
def parseP : Nat → Nat → List Char → Option (JPiece × List Char)
  | 0, _, _ => none
  | fuel + 1, 0, s0 =>
    let s := skipWs s0
    if ['n', 'u', 'l', 'l'].isPrefixOf s then some (.val .null, s.drop 4)
    else if ['t', 'r', 'u', 'e'].isPrefixOf s then some (.val (.bool true), s.drop 4)
    else if ['f', 'a', 'l', 's', 'e'].isPrefixOf s then some (.val (.bool false), s.drop 5)
    else
      match s with
      | [] => none
      | c :: cs =>
        if c = '"' then
          match parseStringLit cs with
          | some (content, rest) => some (.val (.str content), rest)
          | none => none
        else if c = '[' then
          match skipWs cs with
          | ']' :: rest => some (.val (.arr []), rest)
          | _ =>
            match parseP fuel 1 cs with
            | some (.items xs, rest) => some (.val (.arr xs), rest)
            | _ => none
        else if c = '{' then
          match skipWs cs with
          | '}' :: rest => some (.val (.obj []), rest)
          | _ =>
            match parseP fuel 2 cs with
            | some (.fields fs, rest) => some (.val (.obj fs), rest)
            | _ => none
        else
          match parseNum (c :: cs) with
          | some (n, rest) => some (.val (.num n), rest)
          | none => none
  | fuel + 1, 1, s =>
    match parseP fuel 0 s with
    | some (.val j, rest) =>
      match skipWs rest with
      | ',' :: r2 =>
        match parseP fuel 1 r2 with
        | some (.items xs, rest2) => some (.items (j :: xs), rest2)
        | _ => none
      | ']' :: r2 => some (.items [j], r2)
      | _ => none
    | _ => none
  | fuel + 1, _, s =>
    match skipWs s with
    | '"' :: cs =>
      match parseStringLit cs with
      | some (key, r1) =>
        match skipWs r1 with
        | ':' :: r3 =>
          match parseP fuel 0 r3 with
          | some (.val v, r4) =>
            match skipWs r4 with
            | ',' :: r6 =>
              match parseP fuel 2 r6 with
              | some (.fields fs, rest2) => some (.fields ((key, v) :: fs), rest2)
              | _ => none
            | '}' :: r6 => some (.fields [(key, v)], r6)
            | _ => none
          | _ => none
        | _ => none
      | none => none
    | _ => none

/-- `JSON.parse`: one value, nothing but whitespace after it. -/
def parseJson (s : List Char) : Option Json :=
  match parseP (2 * s.length + 2) 0 s with
  | some (.val j, rest) => if skipWs rest = [] then some j else none
  | _ => none

/-- Object field lookup; a duplicated key keeps the later value, as a JS
object literal does. -/
def jsonField (fields : List (List Char × Json)) (key : List Char) : Option Json :=
  fields.foldl (fun acc kv => if kv.1 = key then some kv.2 else acc) none

def jget (j : Json) (key : List Char) : Option Json :=
  match j with
  | .obj fs => jsonField fs key
  | _ => none

/-- Element 0 of an array (optional-chained index access). -/
def jidx (j : Json) : Option Json :=
  match j with
  | .arr (x :: _) => some x
  | _ => none

/-- `json?.candidates?.[0]?.content?.parts?.[0]?.text ?? ""`: the nested text
fragment of an event, or nothing when any step is missing or the leaf is not
a string. -/
def extractText (j : Json) : List Char :=
  match jget j "candidates".toList with
  | some cands =>
    match jidx cands with
    | some c0 =>
      match jget c0 "content".toList with
      | some content =>
        match jget content "parts".toList with
        | some parts =>
          match jidx parts with
          | some p0 =>
            match jget p0 "text".toList with
            | some (.str t) => t
            | _ => []
          | none => []
        | none => []
      | none => []
    | none => []
  | none => []

/-- Contribution of one captured payload: parse it, extract the text;
malformed JSON or an absent/empty text fragment contributes nothing and the
loop continues with the next match. -/
def matchText (g : List Char) : List Char :=
  match parseJson g with
  | some j => extractText j
  | none => []

/-- Bytes the relay forwards for one upstream chunk (the body of the
`for (const match of matches)` loop: each extracted non-empty text is
encoded and enqueued in order). -/
def relayChunk (chunk : List Char) : List Char :=
  ((findMatches chunk).map matchText).flatten

/-- Bytes the relay forwards over a whole upstream stream, chunk by chunk. -/
def relayProcess (chunks : List (List Char)) : List Char :=
  (chunks.map relayChunk).flatten

/-! ### Relay framing correctness -/

def renderEvent (mid : List Char) : List Char :=
  dataMarker ++ ' ' :: '{' :: (mid ++ ['}', '\n'])

def renderEvents (mids : List (List Char)) : List Char :=
  (mids.map renderEvent).flatten

def goodMid (mid : List Char) : Bool := mid.all notNL

theorem takeWhile_append_all {p : Char → Bool} (xs ys : List Char)
    (h : ∀ x ∈ xs, p x = true) :
    (xs ++ ys).takeWhile p = xs ++ ys.takeWhile p := by
  induction xs with
  | nil => simp
  | cons a as ih =>
    have ha : p a = true := h a (by simp)
    simp only [List.cons_append, List.takeWhile_cons, ha, if_true]
    rw [ih (fun x hx => h x (by simp [hx]))]

theorem dropWhile_append_all {p : Char → Bool} (xs ys : List Char)
    (h : ∀ x ∈ xs, p x = true) :
    (xs ++ ys).dropWhile p = ys.dropWhile p := by
  induction xs with
  | nil => simp
  | cons a as ih =>
    have ha : p a = true := h a (by simp)
    simp only [List.cons_append, List.dropWhile_cons, ha, if_true]
    exact ih (fun x hx => h x (by simp [hx]))

theorem splitAtLastBrace_closed (xs : List Char) :
    splitAtLastBrace (xs ++ ['}']) = some (xs ++ ['}'], []) := by
  induction xs with
  | nil => rfl
  | cons c cs ih =>
    simp only [List.cons_append, splitAtLastBrace, List.append_eq, ih]

/-- The one regex match on a rendered event: it captures exactly the payload
and resumes at the newline. -/
theorem tryMatchAt_renderEvent (mid : List Char) (rest : List Char)
    (h : goodMid mid = true) :
    tryMatchAt (renderEvent mid ++ rest)
      = some ('{' :: (mid ++ ['}']), '\n' :: rest) := by
  have hmid : ∀ x ∈ mid, notNL x = true := by
    intro x hx
    exact List.all_eq_true.mp h x hx
  have hshape : renderEvent mid ++ rest
      = 'd' :: 'a' :: 't' :: 'a' :: ':' :: ' ' :: '{' :: (mid ++ '}' :: '\n' :: rest) := by
    simp [renderEvent, dataMarker]
  rw [hshape]
  unfold tryMatchAt
  rw [if_pos (by simp [dataMarker, List.isPrefixOf])]
  have hdrop : ('d' :: 'a' :: 't' :: 'a' :: ':' :: ' ' :: '{' ::
      (mid ++ '}' :: '\n' :: rest)).drop 5 = ' ' :: '{' :: (mid ++ '}' :: '\n' :: rest) := rfl
  rw [hdrop]
  have hws : (' ' :: '{' :: (mid ++ '}' :: '\n' :: rest)).dropWhile isWs
      = '{' :: (mid ++ '}' :: '\n' :: rest) := by
    simp [List.dropWhile_cons, isWs]
  rw [hws]
  dsimp only
  rw [if_pos rfl]
  have htw : (mid ++ '}' :: '\n' :: rest).takeWhile notNL = mid ++ ['}'] := by
    rw [takeWhile_append_all mid _ hmid]
    simp [List.takeWhile_cons, notNL]
  have hdw2 : (mid ++ '}' :: '\n' :: rest).dropWhile notNL = '\n' :: rest := by
    rw [dropWhile_append_all mid _ hmid]
    simp [List.dropWhile_cons, notNL]
  rw [htw, hdw2, splitAtLastBrace_closed]
  rfl

theorem findMatchesF_renderEvents :
    ∀ (mids : List (List Char)) (fuel : Nat),
      (∀ mid ∈ mids, goodMid mid = true) →
      (renderEvents mids).length ≤ fuel →
      findMatchesF fuel (renderEvents mids)
        = mids.map fun mid => '{' :: (mid ++ ['}']) := by
  intro mids
  induction mids with
  | nil =>
    intro fuel _ _
    cases fuel <;> rfl
  | cons mid mids ih =>
    intro fuel hgood hfuel
    have hgm : goodMid mid = true := hgood mid (by simp)
    have hlen : (renderEvents (mid :: mids)).length
        = mid.length + 9 + (renderEvents mids).length := by
      simp [renderEvents, renderEvent, dataMarker]
      omega
    match fuel with
    | 0 => rw [hlen] at hfuel; omega
    | f + 1 =>
      have hshape : renderEvents (mid :: mids)
          = 'd' :: 'a' :: 't' :: 'a' :: ':' :: ' ' :: '{' ::
            (mid ++ '}' :: '\n' :: renderEvents mids) := by
        simp [renderEvents, renderEvent, dataMarker]
      have hm : tryMatchAt (renderEvent mid ++ renderEvents mids)
          = some ('{' :: (mid ++ ['}']), '\n' :: renderEvents mids) :=
        tryMatchAt_renderEvent mid (renderEvents mids) hgm
      have hm2 : tryMatchAt ('d' :: 'a' :: 't' :: 'a' :: ':' :: ' ' :: '{' ::
          (mid ++ '}' :: '\n' :: renderEvents mids))
          = some ('{' :: (mid ++ ['}']), '\n' :: renderEvents mids) := by
        rw [← hm]
        congr 1
        simp [renderEvent, dataMarker]
      rw [hshape]
      simp only [findMatchesF, hm2]
      match f, (by rw [hlen] at hfuel; omega : 1 + (renderEvents mids).length ≤ f) with
      | f + 1, hf2 =>
        have hnm : tryMatchAt ('\n' :: renderEvents mids) = none := by
          unfold tryMatchAt
          rw [if_neg]
          simp [dataMarker, List.isPrefixOf]
        simp only [findMatchesF, hnm]
        rw [ih f (fun m hm => hgood m (by simp [hm])) (by omega)]
        simp

/-- Per-event semantics of the relay loop over a chunk holding a whole
sequence of events: each event contributes its parsed text, a malformed or
textless one contributes nothing, and the contributions are concatenated in
order. -/
theorem relayChunk_events (mids : List (List Char))
    (hgood : ∀ mid ∈ mids, goodMid mid = true) :
    relayChunk (renderEvents mids)
      = (mids.map fun mid => matchText ('{' :: (mid ++ ['}']))).flatten := by
  unfold relayChunk findMatches
  rw [findMatchesF_renderEvents mids (renderEvents mids).length hgood (le_refl _)]
  rw [List.map_map]
  rfl


/-! ## Ephemeral conversation cache and the POST handler
(src/app/api/chat/route.ts)

The `conversations` Map is modelled as an association list with unique keys:
`Map.set` overwrites in place or appends, `Map.get` looks up, and
`cleanupExpired` deletes every entry with `expiresAt <= now`.  The handler is
modelled as a function of the parsed request body, the current time, the
credential, the generated UUID (`crypto.randomUUID()` is an oracle input) and
the upstream fetch outcome; it returns the response (status, body) and the
cache after the request.  The mapping of messages to the upstream `contents`
shape and the outbound URL are not observable in any claim and are elided. -/

/-- A message of the inbound request body (`ClientMessage` in route.ts). -/
structure ClientMessage where
  role : Role
  content : String
deriving DecidableEq, Repr

structure StoredConversation where
  messages : List ClientMessage
  expiresAt : Nat
deriving DecidableEq, Repr

def CONVO_TTL_MS : Nat := 60 * 60 * 1000

def Cache : Type := List (String × StoredConversation)

def cacheLookup (c : Cache) (k : String) : Option StoredConversation :=
  match c with
  | [] => none
  | kv :: rest => if kv.1 = k then some kv.2 else cacheLookup rest k

/-- `conversations.set sid v`: overwrite in place, else append. -/
def cacheSet (c : Cache) (k : String) (v : StoredConversation) : Cache :=
  match c with
  | [] => [(k, v)]
  | kv :: rest => if kv.1 = k then (k, v) :: rest else kv :: cacheSet rest k v

/-- `cleanupExpired()`: delete every entry whose expiry has passed. -/
def cleanupExpired (now : Nat) (c : Cache) : Cache :=
  c.filter fun kv => decide (now < kv.2.expiresAt)

/-- Parsed request body: `\x7b messages, sessionId? \x7d`. -/
structure PostReq where
  messages : List ClientMessage
  sessionId : Option String

/-- The upstream `fetch` resolved to a response. -/
structure UpstreamResp where
  ok : Bool
  status : Nat
  statusText : List Char
  hasBody : Bool
  errText : List Char
  chunks : List (List Char)

/-- Outcome of the upstream call: a response, or a thrown transport error. -/
inductive FetchOutcome where
  | ret (r : UpstreamResp)
  | thrown

/-- `sessionId || crypto.randomUUID()`: the empty string is falsy. -/
def resolveSid (req : PostReq) (uuid : String) : String :=
  match req.sessionId with
  | some s => if s = "" then uuid else s
  | none => uuid

/-- `!apiKey`: absent or empty credential. -/
def missingKey (apiKey : Option String) : Bool :=
  match apiKey with
  | none => true
  | some s => s = ""

/-- The filter applied before storing: drop messages that are assistant role
with falsy (empty) content. -/
def toStore (msgs : List ClientMessage) : List ClientMessage :=
  msgs.filter fun m => ! (m.role = Role.assistant ∧ m.content = "")

/-- The `POST` handler after a successful body parse: sweep, resolve the
session id, check the credential, store the conversation, call upstream and
relay.  A thrown fetch lands in the outer `catch` (status 400); a non-ok or
bodyless upstream response yields 502 with the upstream status and error
text; otherwise the relayed text stream is returned with status 200. -/
def postModel (cache : Cache) (now : Nat) (apiKey : Option String)
    (uuid : String) (req : PostReq) (f : FetchOutcome) :
    (Nat × List Char) × Cache :=
  let cache1 := cleanupExpired now cache
  let sid := resolveSid req uuid
  if missingKey apiKey then
    ((500, "Missing GEMINI_API_KEY".toList), cache1)
  else
    let cache2 := cacheSet cache1 sid
      { messages := toStore req.messages, expiresAt := now + CONVO_TTL_MS }
    match f with
    | .thrown => ((400, "Bad Request".toList), cache2)
    | .ret r =>
      if r.ok = false ∨ r.hasBody = false then
        ((502, "Upstream error: ".toList ++ Nat.toDigits 10 r.status
          ++ ' ' :: r.statusText ++ '\n' :: r.errText), cache2)
      else
        ((200, relayProcess r.chunks), cache2)

/-- `conversations.set(sid, \x7b messages, expiresAt: Date.now() + CONVO_TTL_MS \x7d)`. -/
def setConversation (c : Cache) (sid : String) (msgs : List ClientMessage)
    (now : Nat) : Cache :=
  cacheSet c sid { messages := msgs, expiresAt := now + CONVO_TTL_MS }

/-- A JS `Map` never holds two entries with the same key. -/
def CacheWF (c : Cache) : Prop := (c.map Prod.fst).Nodup

theorem cacheLookup_set_self (c : Cache) (k : String) (v : StoredConversation) :
    cacheLookup (cacheSet c k v) k = some v := by
  induction c with
  | nil => simp [cacheSet, cacheLookup]
  | cons kv rest ih =>
    by_cases hk : kv.1 = k
    · simp [cacheSet, hk, cacheLookup]
    · simp [cacheSet, hk, cacheLookup, ih]

theorem cleanupExpired_cons (t : Nat) (kv : String × StoredConversation)
    (rest : Cache) :
    cleanupExpired t (kv :: rest)
      = if t < kv.2.expiresAt then kv :: cleanupExpired t rest
        else cleanupExpired t rest := by
  simp [cleanupExpired, List.filter_cons]

theorem cacheLookup_set_ne (c : Cache) (k kother : String) (v : StoredConversation)
    (h : kother ≠ k) :
    cacheLookup (cacheSet c k v) kother = cacheLookup c kother := by
  have h2 : ¬ (k = kother) := fun he => h he.symm
  induction c with
  | nil => simp [cacheSet, cacheLookup, h2]
  | cons kv rest ih =>
    by_cases hk : kv.1 = k
    · simp [cacheSet, hk, cacheLookup, h2]
    · simp [cacheSet, hk, cacheLookup, ih]

theorem cacheLookup_cleanup_keep (c : Cache) (t : Nat) (k : String)
    (v : StoredConversation) (hl : cacheLookup c k = some v)
    (hv : t < v.expiresAt) :
    cacheLookup (cleanupExpired t c) k = some v := by
  induction c with
  | nil => simp [cacheLookup] at hl
  | cons kv rest ih =>
    rw [cleanupExpired_cons]
    by_cases hk : kv.1 = k
    · simp only [cacheLookup, hk, if_pos, if_true, Option.some.injEq] at hl
      subst hl
      rw [if_pos hv]
      simp [cacheLookup, hk]
    · simp only [cacheLookup, hk, if_false, ite_false] at hl
      by_cases he : t < kv.2.expiresAt
      · rw [if_pos he]
        simp only [cacheLookup, hk, if_false, ite_false]
        exact ih hl
      · rw [if_neg he]
        exact ih hl

theorem cacheLookup_cleanup_none (c : Cache) (t : Nat) (k : String)
    (hl : cacheLookup c k = none) :
    cacheLookup (cleanupExpired t c) k = none := by
  induction c with
  | nil => rfl
  | cons kv rest ih =>
    rw [cleanupExpired_cons]
    by_cases hk : kv.1 = k
    · simp [cacheLookup, hk] at hl
    · simp only [cacheLookup, hk, if_false, ite_false] at hl
      by_cases he : t < kv.2.expiresAt
      · rw [if_pos he]
        simp only [cacheLookup, hk, if_false, ite_false]
        exact ih hl
      · rw [if_neg he]
        exact ih hl

theorem cacheLookup_not_mem (c : Cache) (k : String)
    (h : k ∉ c.map Prod.fst) : cacheLookup c k = none := by
  induction c with
  | nil => rfl
  | cons kv rest ih =>
    simp only [List.map_cons, List.mem_cons] at h
    push_neg at h
    have hne : ¬ (kv.1 = k) := fun he => h.1 he.symm
    simp only [cacheLookup, hne, if_false, ite_false]
    exact ih h.2

theorem cacheLookup_cleanup_expired (c : Cache) (t : Nat) (k : String)
    (v : StoredConversation) (hwf : CacheWF c) (hl : cacheLookup c k = some v)
    (hv : v.expiresAt ≤ t) :
    cacheLookup (cleanupExpired t c) k = none := by
  induction c with
  | nil => simp [cacheLookup] at hl
  | cons kv rest ih =>
    unfold CacheWF at hwf
    simp only [List.map_cons, List.nodup_cons] at hwf
    rw [cleanupExpired_cons]
    by_cases hk : kv.1 = k
    · simp only [cacheLookup, hk, if_pos, if_true, Option.some.injEq] at hl
      subst hl
      rw [if_neg (Nat.not_lt.mpr hv)]
      apply cacheLookup_cleanup_none
      apply cacheLookup_not_mem
      rw [← hk]
      exact hwf.1
    · simp only [cacheLookup, hk, if_false, ite_false] at hl
      by_cases he : t < kv.2.expiresAt
      · rw [if_pos he]
        simp only [cacheLookup, hk, if_false, ite_false]
        exact ih hwf.2 hl
      · rw [if_neg he]
        exact ih hwf.2 hl

theorem cacheWF_set (c : Cache) (k : String) (v : StoredConversation)
    (h : CacheWF c) : CacheWF (cacheSet c k v) := by
  induction c with
  | nil => simp [CacheWF, cacheSet]
  | cons kv rest ih =>
    unfold CacheWF at h ⊢
    simp only [List.map_cons, List.nodup_cons] at h
    by_cases hk : kv.1 = k
    · simp only [cacheSet, hk, if_pos, if_true, List.map_cons, List.nodup_cons]
      exact ⟨by rw [← hk]; exact h.1, h.2⟩
    · simp only [cacheSet, hk, if_false, ite_false, List.map_cons, List.nodup_cons]
      refine ⟨?_, ih h.2⟩
      intro hmem
      -- keys of cacheSet rest k v are the old keys possibly extended with k
      have : kv.1 ∈ (rest.map Prod.fst) ∨ kv.1 = k := by
        clear ih h
        induction rest with
        | nil => simpa [cacheSet] using hmem
        | cons kv2 rest2 ih2 =>
          by_cases hk2 : kv2.1 = k
          · simp only [cacheSet, hk2, if_pos, if_true, List.map_cons,
              List.mem_cons] at hmem
            rcases hmem with hmem | hmem
            · right; exact hmem
            · left; simp [hmem]
          · simp only [cacheSet, hk2, if_false, ite_false, List.map_cons,
              List.mem_cons] at hmem
            rcases hmem with hmem | hmem
            · left; simp [hmem]
            · rcases ih2 hmem with h2 | h2
              · left; simp [h2]
              · right; exact h2
      rcases this with h2 | h2
      · exact h.1 h2
      · exact hk h2

/-- `needle` occurs contiguously inside `hay`. -/
def occursIn (needle hay : List Char) : Prop :=
  ∃ l r, hay = l ++ needle ++ r

/-- Spec-worded filter for comparison (section 4.4: "filtering out any
trailing empty assistant message"): remove only a trailing empty assistant
message, keep everything else. -/
def dropTrailingEmptyAssistant (msgs : List ClientMessage) : List ClientMessage :=
  match msgs.getLast? with
  | some m =>
    if m.role = Role.assistant ∧ m.content = "" then msgs.dropLast else msgs
  | none => msgs

/-! ## Claims -/

/-- Concrete upstream event split across two transport chunks: the bytes up
to the middle of the `text` key, then the remainder. -/
def evChunk1 : List Char :=
  ("data: \x7b\"candidates\":[\x7b\"content\":\x7b\"parts\":[\x7b\"te").toList

def evChunk2 : List Char :=
  ("xt\":\"Hi\"\x7d]\x7d\x7d]\x7d\n").toList

/-- Claim C1: the relay is claimed to forward the text of every
fully-received event, including events whose `data:` line is split across
two chunks.  The code decodes and regex-scans each chunk independently, so
an event split across two chunks is silently dropped: delivered whole the
relay forwards "Hi", split it forwards nothing. -/
theorem relay_drops_split_event :
    relayProcess [evChunk1, evChunk2] = [] ∧
    relayProcess [evChunk1 ++ evChunk2] = "Hi".toList := by
  decide

/-- Claim C2, counterexample: a thrown transport error during the upstream
fetch lands in the handler's outer catch and yields status 400
"Bad Request", not the claimed 502. -/
theorem thrown_fetch_gives_400 :
    (postModel [] 0 (some "k") "u" ⟨[], none⟩ .thrown).1.1 = 400 ∧
    (postModel [] 0 (some "k") "u" ⟨[], none⟩ .thrown).1.1 ≠ 502 := by
  decide

/-- Claim C2 (amended): when the upstream fetch resolves to a non-ok or
bodyless response, the relay answers 502 with a body containing the upstream
status code and the upstream error body text; a thrown transport error
instead yields 400. -/
theorem upstream_failure_502 (cache : Cache) (now : Nat) (key : String)
    (uuid : String) (req : PostReq) (r : UpstreamResp)
    (hkey : key ≠ "") (hfail : r.ok = false ∨ r.hasBody = false) :
    (postModel cache now (some key) uuid req (.ret r)).1.1 = 502 ∧
    occursIn (Nat.toDigits 10 r.status)
      (postModel cache now (some key) uuid req (.ret r)).1.2 ∧
    occursIn r.errText
      (postModel cache now (some key) uuid req (.ret r)).1.2 ∧
    (postModel cache now (some key) uuid req .thrown).1.1 = 400 := by
  have hmk : missingKey (some key) = false := by simp [missingKey, hkey]
  simp only [postModel, hmk, Bool.false_eq_true, if_false, ite_false,
    if_pos hfail]
  refine ⟨trivial, ?_, ?_, trivial⟩
  · exact ⟨"Upstream error: ".toList, ' ' :: r.statusText ++ '\n' :: r.errText,
      by simp⟩
  · exact ⟨"Upstream error: ".toList ++ Nat.toDigits 10 r.status
      ++ ' ' :: r.statusText ++ ['\n'], [], by simp⟩

/-- Witness for the amended C2 at a concrete failing upstream response. -/
theorem upstream_failure_502_witness :
    (postModel [] 0 (some "k") "u" ⟨[], none⟩
        (.ret ⟨false, 403, "Forbidden".toList, true, "denied".toList, []⟩)).1.1 = 502 ∧
    occursIn (Nat.toDigits 10 403)
      (postModel [] 0 (some "k") "u" ⟨[], none⟩
        (.ret ⟨false, 403, "Forbidden".toList, true, "denied".toList, []⟩)).1.2 ∧
    occursIn "denied".toList
      (postModel [] 0 (some "k") "u" ⟨[], none⟩
        (.ret ⟨false, 403, "Forbidden".toList, true, "denied".toList, []⟩)).1.2 ∧
    (postModel [] 0 (some "k") "u" ⟨[], none⟩ .thrown).1.1 = 400 :=
  upstream_failure_502 [] 0 "k" "u" ⟨[], none⟩
    ⟨false, 403, "Forbidden".toList, true, "denied".toList, []⟩
    (by decide) (Or.inl rfl)

def exMsgs : List ClientMessage :=
  [⟨Role.assistant, ""⟩, ⟨Role.user, "hi"⟩]

/-- Claim C3, counterexample: the stored history is claimed to drop only a
TRAILING empty assistant message.  On a history whose empty assistant
message is non-trailing, the code still drops it: the stored list differs
from the claimed one. -/
theorem store_drops_nontrailing_empty_assistant :
    (cacheLookup (postModel [] 0 (some "k") "u" ⟨exMsgs, some "s"⟩ .thrown).2 "s").map
        StoredConversation.messages = some [⟨Role.user, "hi"⟩] ∧
    dropTrailingEmptyAssistant exMsgs = exMsgs ∧
    (some [(⟨Role.user, "hi"⟩ : ClientMessage)] ≠ some exMsgs) := by
  decide

/-- Claim C3 (amended): before the upstream call, the relay overwrites the
cache entry for the resolved session with the inbound history restricted to
the messages that are user-role or have non-empty content (every
empty-content assistant message is removed, wherever it sits), together with
a fresh expiry `now + CONVO_TTL_MS`. -/
theorem cache_overwrite_filtered_history (cache : Cache) (now : Nat)
    (key uuid : String) (req : PostReq) (f : FetchOutcome) (hkey : key ≠ "") :
    cacheLookup (postModel cache now (some key) uuid req f).2 (resolveSid req uuid)
      = some ⟨req.messages.filter (fun m => m.role = Role.user ∨ m.content ≠ ""),
              now + CONVO_TTL_MS⟩ := by
  have hmk : missingKey (some key) = false := by simp [missingKey, hkey]
  have hfilter : toStore req.messages
      = req.messages.filter (fun m => m.role = Role.user ∨ m.content ≠ "") := by
    unfold toStore
    apply List.filter_congr
    intro m _
    cases hm : m.role <;> simp [hm]
  simp only [postModel, hmk, Bool.false_eq_true, if_false, ite_false]
  rw [← hfilter]
  cases f with
  | thrown => exact cacheLookup_set_self _ _ _
  | ret r =>
    by_cases hok : r.ok = false ∨ r.hasBody = false
    · simp only [if_pos hok]
      exact cacheLookup_set_self _ _ _
    · simp only [if_neg hok]
      exact cacheLookup_set_self _ _ _

/-- Witness for the amended C3 at a concrete history with a non-trailing
empty assistant message. -/
theorem cache_overwrite_filtered_history_witness :
    cacheLookup (postModel [] 7 (some "k") "u"
        ⟨[⟨Role.assistant, ""⟩, ⟨Role.user, "hi"⟩], some "s"⟩ .thrown).2
        (resolveSid ⟨[⟨Role.assistant, ""⟩, ⟨Role.user, "hi"⟩], some "s"⟩ "u")
      = some ⟨[⟨Role.assistant, ""⟩, ⟨Role.user, "hi"⟩].filter
              (fun m => m.role = Role.user ∨ m.content ≠ ""),
              7 + CONVO_TTL_MS⟩ :=
  cache_overwrite_filtered_history [] 7 "k" "u"
    ⟨[⟨Role.assistant, ""⟩, ⟨Role.user, "hi"⟩], some "s"⟩ .thrown (by decide)

/-- Claim C4, counterexample: the final placeholder content is claimed to
equal the decoding of the full byte stream for EVERY validly-decoding chunk
sequence; but for a stream with no bytes at all the decoding is empty while
the placeholder keeps the sentinel "Thinking…". -/
theorem empty_stream_keeps_sentinel :
    clientFinalContent [] = sentinelCps ∧
    utf8Decode (List.flatten ([] : List (List Nat))) = [] ∧
    sentinelCps ≠ [] := by
  decide

/-- Claim C4 (amended): for every chunk sequence whose concatenation is
well-formed UTF-8 — split at any byte boundary, including mid-character —
the final placeholder content equals the decoding of the concatenated
stream whenever that decoding is non-empty, and stays the sentinel when the
stream decodes to nothing. -/
theorem client_content_eq_decoded (chunks : List (List Nat))
    (hwf : wellFormed chunks.flatten = true) :
    clientFinalContent chunks
      = (if utf8Decode chunks.flatten = [] then sentinelCps
         else utf8Decode chunks.flatten) := by
  unfold clientFinalContent
  rw [clientStream_spec chunks [] rfl (by simpa using hwf)]
  simp

/-- Witness for the amended C4: the three-byte character U+2026 split across
two chunks is decoded intact. -/
theorem client_content_eq_decoded_witness :
    wellFormed (List.flatten [[0xE2], [0x80, 0xA6]]) = true ∧
    clientFinalContent [[0xE2], [0x80, 0xA6]]
      = (if utf8Decode (List.flatten [[0xE2], [0x80, 0xA6]]) = [] then sentinelCps
         else utf8Decode (List.flatten [[0xE2], [0x80, 0xA6]])) :=
  ⟨by decide, client_content_eq_decoded [[0xE2], [0x80, 0xA6]] (by decide)⟩

/-- Claim C5: over a chunk carrying a sequence of events, the relay forwards
exactly the concatenation, in order, of each event's extracted text; an
event whose payload fails to parse, or carries no text fragment, contributes
nothing and does not stop the remaining events from being forwarded. -/
theorem relay_event_semantics (mids : List (List Char))
    (hgood : ∀ mid ∈ mids, goodMid mid = true) :
    relayProcess [renderEvents mids]
      = (mids.map fun mid =>
          match parseJson ('{' :: (mid ++ ['}'])) with
          | some j => extractText j
          | none => []).flatten := by
  unfold relayProcess
  simp only [List.map_cons, List.map_nil, List.flatten_cons, List.flatten_nil,
    List.append_nil]
  rw [relayChunk_events mids hgood]
  rfl

def wmid1 : List Char :=
  ("\"candidates\":[\x7b\"content\":\x7b\"parts\":[\x7b\"text\":\"Hel\"\x7d]\x7d\x7d]").toList

def wmid2 : List Char := "oops".toList

def wmid3 : List Char :=
  ("\"candidates\":[\x7b\"content\":\x7b\"parts\":[\x7b\"text\":\"lo\"\x7d]\x7d\x7d]").toList

/-- Witness for C5: two valid events with a malformed one between them
assemble to "Hello". -/
theorem relay_event_semantics_witness :
    (∀ mid ∈ [wmid1, wmid2, wmid3], goodMid mid = true) ∧
    relayProcess [renderEvents [wmid1, wmid2, wmid3]]
      = ([wmid1, wmid2, wmid3].map fun mid =>
          match parseJson ('{' :: (mid ++ ['}'])) with
          | some j => extractText j
          | none => []).flatten ∧
    relayProcess [renderEvents [wmid1, wmid2, wmid3]] = "Hello".toList :=
  ⟨by decide, relay_event_semantics [wmid1, wmid2, wmid3] (by decide), by decide⟩

/-- Claim C6: while a turn is in flight (`loading`), a form submission is a
no-op (the controls are disabled), leaving the whole state and in particular
the transcript unchanged; and every reachable state has at most one
assistant placeholder awaiting content. -/
theorem submit_noop_and_single_placeholder (s : ClientState) (raw : String)
    (h : Reachable s) :
    (s.loading = true → clientStep s (.submit raw) = s) ∧ awaitingCount s ≤ 1 :=
  ⟨fun hl => by simp [clientStep, hl],
   awaitingCount_le_one s (reachable_clientInv s h)⟩

/-- A reachable state with an open turn. -/
def busyState : ClientState :=
  clientStep (clientStep clientInit (.setSession "sid")) (.submit "hi")

/-- Witness for C6 at a concrete reachable in-flight state. -/
theorem submit_noop_witness :
    busyState.loading = true ∧
    ((busyState.loading = true → clientStep busyState (.submit "again") = busyState) ∧
      awaitingCount busyState ≤ 1) :=
  ⟨by decide,
   submit_noop_and_single_placeholder busyState "again"
     (Reachable.step _ (.submit "hi")
       (Reachable.step _ (.setSession "sid") Reachable.init))⟩

/-- Claim C7: with a session id present and no turn in flight, submitting
input with non-empty trimmed text appends exactly the user message carrying
the trimmed text and then the assistant placeholder with the sentinel, at
the end of the transcript, before any network activity; whitespace-only
input appends nothing. -/
theorem submit_appends_user_then_placeholder (s : ClientState) (raw sid : String)
    (hsid : s.sessionId = some sid) (hload : s.loading = false) :
    (jsTrim raw ≠ "" → (clientStep s (.submit raw)).messages
        = s.messages ++ [⟨s.nextId, Role.user, jsTrim raw⟩,
                         ⟨s.nextId + 1, Role.assistant, "Thinking…"⟩]) ∧
    (jsTrim raw = "" → (clientStep s (.submit raw)).messages = s.messages) := by
  constructor
  · intro ht
    simp [clientStep, hsid, hload, ht]
  · intro ht
    simp [clientStep, hsid, hload, ht]

/-- A reachable idle state with a session id. -/
def readyState : ClientState := clientStep clientInit (.setSession "sid")

/-- Witness for C7 at a concrete idle state and input needing trimming. -/
theorem submit_appends_witness :
    readyState.sessionId = some "sid" ∧ readyState.loading = false ∧
    ((jsTrim "  hello  " ≠ "" → (clientStep readyState (.submit "  hello  ")).messages
        = readyState.messages ++ [⟨readyState.nextId, Role.user, jsTrim "  hello  "⟩,
            ⟨readyState.nextId + 1, Role.assistant, "Thinking…"⟩]) ∧
     (jsTrim "  hello  " = "" → (clientStep readyState (.submit "  hello  ")).messages
        = readyState.messages)) :=
  ⟨rfl, rfl,
   submit_appends_user_then_placeholder readyState "  hello  " "sid" rfl rfl⟩

/-- Claim C8: an entry written by set is present immediately afterwards with
expiry = set time + TTL; a sweep strictly later than the expiry removes it;
and a sweep never removes or alters an entry whose expiry has not yet been
reached (so a second set for a different still-valid session is unaffected). -/
theorem cache_ttl (cache : Cache) (sid : String) (msgs : List ClientMessage)
    (t0 t1 : Nat) (hwf : CacheWF cache) :
    cacheLookup (setConversation cache sid msgs t0) sid
      = some ⟨msgs, t0 + CONVO_TTL_MS⟩ ∧
    (t0 + CONVO_TTL_MS < t1 →
      cacheLookup (cleanupExpired t1 (setConversation cache sid msgs t0)) sid
        = none) ∧
    (∀ sid2 e, cacheLookup cache sid2 = some e → t1 < e.expiresAt →
      cacheLookup (cleanupExpired t1 cache) sid2 = some e) := by
  refine ⟨cacheLookup_set_self _ _ _, ?_, ?_⟩
  · intro ht
    apply cacheLookup_cleanup_expired _ _ _ ⟨msgs, t0 + CONVO_TTL_MS⟩
      (cacheWF_set cache sid _ hwf) (cacheLookup_set_self _ _ _)
    show t0 + CONVO_TTL_MS ≤ t1
    omega
  · intro sid2 e hl he
    exact cacheLookup_cleanup_keep _ _ _ _ hl he

def otherEntry : StoredConversation := ⟨[], 10 ^ 9⟩

def wCache : Cache := [("other", otherEntry)]

/-- Witness for C8: a fresh set is visible, swept once past its TTL, while a
still-valid entry for another session survives the sweep. -/
theorem cache_ttl_witness :
    cacheLookup (setConversation wCache "s" [] 0) "s"
      = some ⟨[], 0 + CONVO_TTL_MS⟩ ∧
    cacheLookup (cleanupExpired (CONVO_TTL_MS + 1)
        (setConversation wCache "s" [] 0)) "s" = none ∧
    cacheLookup (cleanupExpired (CONVO_TTL_MS + 1) wCache) "other"
      = some otherEntry :=
  ⟨(cache_ttl wCache "s" [] 0 (CONVO_TTL_MS + 1) (by unfold CacheWF; decide)).1,
   (cache_ttl wCache "s" [] 0 (CONVO_TTL_MS + 1) (by unfold CacheWF; decide)).2.1
     (by decide),
   (cache_ttl wCache "s" [] 0 (CONVO_TTL_MS + 1) (by unfold CacheWF; decide)).2.2
     "other" otherEntry (by decide) (by decide)⟩

/-- Absence of an entry keyed by the empty string. -/
def noEmptyKey (c : Cache) : Prop := cacheLookup c "" = none

/-- Claim C9: when the inbound sessionId is absent or empty, the relay keys
the stored conversation by the freshly generated UUID (so two such requests
with distinct generated UUIDs store under distinct keys), and the cache never
acquires an entry keyed by the empty string. -/
theorem generated_uuid_key (cache : Cache) (now : Nat) (apiKey : Option String)
    (uuid : String) (req : PostReq) (f : FetchOutcome)
    (hsid : req.sessionId = none ∨ req.sessionId = some "") (hu : uuid ≠ "") :
    resolveSid req uuid = uuid ∧
    (missingKey apiKey = false →
      cacheLookup (postModel cache now apiKey uuid req f).2 uuid
        = some ⟨toStore req.messages, now + CONVO_TTL_MS⟩) ∧
    (noEmptyKey cache → noEmptyKey (postModel cache now apiKey uuid req f).2) := by
  have hres : resolveSid req uuid = uuid := by
    rcases hsid with h | h <;> simp [resolveSid, h]
  refine ⟨hres, ?_, ?_⟩
  · intro hmk
    simp only [postModel, hmk, Bool.false_eq_true, if_false, ite_false, hres]
    cases f with
    | thrown => exact cacheLookup_set_self _ _ _
    | ret r =>
      by_cases hok : r.ok = false ∨ r.hasBody = false
      · simp only [if_pos hok]
        exact cacheLookup_set_self _ _ _
      · simp only [if_neg hok]
        exact cacheLookup_set_self _ _ _
  · intro hne
    unfold noEmptyKey at hne ⊢
    have hclean := cacheLookup_cleanup_none cache now "" hne
    by_cases hmk : missingKey apiKey = true
    · simp only [postModel, hmk, if_pos, if_true]
      exact hclean
    · have hmk2 : missingKey apiKey = false := by simpa using hmk
      simp only [postModel, hmk2, Bool.false_eq_true, if_false, ite_false, hres]
      cases f with
      | thrown =>
        rw [cacheLookup_set_ne _ _ _ _ (fun he => hu he.symm)]
        exact hclean
      | ret r =>
        by_cases hok : r.ok = false ∨ r.hasBody = false
        · simp only [if_pos hok]
          rw [cacheLookup_set_ne _ _ _ _ (fun he => hu he.symm)]
          exact hclean
        · simp only [if_neg hok]
          rw [cacheLookup_set_ne _ _ _ _ (fun he => hu he.symm)]
          exact hclean

/-- Witness for C9 at a concrete request with no sessionId. -/
theorem generated_uuid_key_witness :
    resolveSid ⟨[], none⟩ "u" = "u" ∧
    (missingKey (some "k") = false →
      cacheLookup (postModel [("a", ⟨[], 50⟩)] 0 (some "k") "u" ⟨[], none⟩ .thrown).2 "u"
        = some ⟨toStore [], 0 + CONVO_TTL_MS⟩) ∧
    (noEmptyKey [("a", ⟨[], 50⟩)] →
      noEmptyKey (postModel [("a", ⟨[], 50⟩)] 0 (some "k") "u" ⟨[], none⟩ .thrown).2) :=
  generated_uuid_key [("a", ⟨[], 50⟩)] 0 (some "k") "u" ⟨[], none⟩ .thrown
    (Or.inl rfl) (by decide)

def staleEntry : StoredConversation := ⟨[], 5⟩

def staleCache : Cache := [("s", staleEntry)]

/-- Claim C10, counterexample: the 500 response for a missing credential is
claimed to leave the cache entry for the request's session unchanged even
though the sweep runs; but when that entry has already expired, the sweep —
which runs before the credential check — removes it. -/
theorem missing_key_sweeps_expired :
    (postModel staleCache 10 none "u" ⟨[], some "s"⟩ .thrown).1.1 = 500 ∧
    cacheLookup staleCache "s" = some staleEntry ∧
    cacheLookup (postModel staleCache 10 none "u" ⟨[], some "s"⟩ .thrown).2 "s"
      = none := by
  decide

/-- Claim C10 (amended): when the credential is missing, the relay answers
500 and performs no set: the cache after the request is exactly the sweep of
the cache as of the request time, so the session's entry is unchanged
whenever it has not yet expired (an already-expired one is removed by the
sweep). -/
theorem missing_key_no_store (cache : Cache) (now : Nat) (apiKey : Option String)
    (uuid : String) (req : PostReq) (f : FetchOutcome)
    (hmk : missingKey apiKey = true) :
    (postModel cache now apiKey uuid req f).1.1 = 500 ∧
    (postModel cache now apiKey uuid req f).2 = cleanupExpired now cache ∧
    (∀ e, cacheLookup cache (resolveSid req uuid) = some e → now < e.expiresAt →
      cacheLookup (postModel cache now apiKey uuid req f).2 (resolveSid req uuid)
        = some e) := by
  simp only [postModel, hmk, if_pos, if_true]
  refine ⟨trivial, trivial, ?_⟩
  intro e hl he
  exact cacheLookup_cleanup_keep _ _ _ _ hl he

/-- Witness for the amended C10: a still-valid entry survives the 500 path. -/
theorem missing_key_no_store_witness :
    (postModel [("s", ⟨[], 99⟩)] 10 none "u" ⟨[], some "s"⟩ .thrown).1.1 = 500 ∧
    (postModel [("s", ⟨[], 99⟩)] 10 none "u" ⟨[], some "s"⟩ .thrown).2
      = cleanupExpired 10 [("s", ⟨[], 99⟩)] ∧
    cacheLookup (postModel [("s", ⟨[], 99⟩)] 10 none "u" ⟨[], some "s"⟩ .thrown).2
      (resolveSid ⟨[], some "s"⟩ "u") = some ⟨[], 99⟩ :=
  ⟨(missing_key_no_store [("s", ⟨[], 99⟩)] 10 none "u" ⟨[], some "s"⟩ .thrown rfl).1,
   (missing_key_no_store [("s", ⟨[], 99⟩)] 10 none "u" ⟨[], some "s"⟩ .thrown rfl).2.1,
   (missing_key_no_store [("s", ⟨[], 99⟩)] 10 none "u" ⟨[], some "s"⟩ .thrown rfl).2.2
     ⟨[], 99⟩ (by decide) (by decide)⟩

end ChatStream
